import Mathlib

/-!
# Verification of the streamlit-folium transcoding core

A shallow embedding, in Lean 4, of the core of `streamlit_folium/__init__.py`:

* `generate_js_hash`  — script fingerprinting (regex normalisation + SHA-256);
* `_generate_leaflet_string` — the tree traversal that renders fragments and
  builds the ephemeral-id → stable-id mapping;
* `_replace_folium_vars` / `generate_leaflet_string` — the textual
  normalisation pass;
* `_get_map_string`, `_get_feature_group_string` — the map / feature-group
  transcoders;
* the default interaction-envelope construction inside `st_folium`.

Python strings are modelled as Lean `String`/`List Char`; python dicts used
only through `d[k] = v`, `k in d` and `d.get(k)` are modelled as association
lists with shadowing on the left (observationally equivalent for those three
operations); machine-word arithmetic in SHA-256 is `Nat` with explicit
`% 2^32`.  The external rendering collaborator (folium/jinja2) is a black box
"render node → raw fragment text, or raise UndefinedError"; it is modelled by
per-node `Option String` fields (`none` = the collaborator raises the
undefined-template failure).
-/

set_option maxRecDepth 100000

namespace StFolium

/-! ## Python dict (as used by the traversal: assignment, membership, get) -/

/-- Python dict restricted to the operations the source uses
(`d[k] = v`, `k in d`, `d.get(k)`): an association list where the most
recent binding of a key shadows older ones. -/
def Dict := List (String × String)

def dictGet (d : Dict) (k : String) : Option String :=
  match d.find? (fun kv => kv.1 == k) with
  | some kv => some kv.2
  | none => none

/-- `k in d` (python membership test). -/
def dictHas (d : Dict) (k : String) : Bool :=
  (dictGet d k).isSome

/-- `d[k] = v` (python assignment; the new binding shadows any older one). -/
def dictSet (d : Dict) (k v : String) : Dict := (k, v) :: d

theorem dictGet_set_self (d : Dict) (k v : String) :
    dictGet (dictSet d k v) k = some v := by
  simp [dictGet, dictSet, List.find?]

theorem dictGet_set_ne (d : Dict) (k v k' : String) (h : k' ≠ k) :
    dictGet (dictSet d k v) k' = dictGet d k' := by
  have hk : (k == k') = false := beq_eq_false_iff_ne.mpr (Ne.symm h)
  simp [dictGet, dictSet, List.find?, hk]

/-! ## `re.sub(r"(_[a-z0-9]+)", "", s)`

Left-to-right scan: at each `_` immediately followed by at least one
lowercase-alphanumeric character, the `_` together with the maximal
`[a-z0-9]` run is deleted; scanning resumes at the first character after the
run.  Implemented as a three-state character automaton (structurally
recursive, hence kernel-computable). -/

def isLowerAlnum (c : Char) : Bool :=
  (97 ≤ c.toNat && c.toNat ≤ 122) || (48 ≤ c.toNat && c.toNat ≤ 57)

/-- Scanner state: `norm` = plain scanning, `pend` = an `_` has been read but
not yet emitted (it starts a match iff the next char is `[a-z0-9]`),
`run` = inside a deleted `_[a-z0-9]+` run. -/
inductive ScanSt where
  | norm
  | pend
  | run

def stripScan : ScanSt → List Char → List Char
  | .norm, [] => []
  | .norm, c :: rest =>
    if c = '_' then stripScan .pend rest else c :: stripScan .norm rest
  | .pend, [] => ['_']
  | .pend, c :: rest =>
    if isLowerAlnum c then stripScan .run rest
    else if c = '_' then '_' :: stripScan .pend rest
    else '_' :: c :: stripScan .norm rest
  | .run, [] => []
  | .run, c :: rest =>
    if isLowerAlnum c then stripScan .run rest
    else if c = '_' then stripScan .pend rest
    else c :: stripScan .norm rest

/-- `re.sub(r"(_[a-z0-9]+)", "", s)` — the normalisation used by
`generate_js_hash`. -/
def stripVarSuffixes (s : String) : String := ⟨stripScan .norm s.data⟩

/-! ## `re.sub(r"(maps\/[-a-z0-9]+\/)", "", s)`

Deletes every `maps/<nonempty [-a-z0-9] run>/`.  The character class
excludes `/`, so the greedy run is the maximal one and no backtracking case
is reachable.  The scan advances at least one character per step, so running
it with `length` fuel (structural recursion on the fuel) is exact. -/

def isUrlRunChar (c : Char) : Bool :=
  c = '-' || isLowerAlnum c

/-- After `maps/` and at least one run character: consume the rest of the run,
then require `/`; returns the suffix after the closing `/`. -/
def urlRunEnd : List Char → Option (List Char)
  | [] => none
  | c :: rest =>
    if isUrlRunChar c then urlRunEnd rest
    else if c = '/' then some rest else none

/-- Try to match `maps\/[-a-z0-9]+\/` at the head; on success return the
suffix after the match. -/
def urlMatch : List Char → Option (List Char)
  | 'm' :: 'a' :: 'p' :: 's' :: '/' :: c :: rest =>
    if isUrlRunChar c then urlRunEnd rest else none
  | _ => none

def urlScan : Nat → List Char → List Char
  | 0, l => l
  | _ + 1, [] => []
  | fuel + 1, c :: rest =>
    match urlMatch (c :: rest) with
    | some suffix => urlScan fuel suffix
    | none => c :: urlScan fuel rest

/-- `re.sub(r"(maps\/[-a-z0-9]+\/)", "", s)`. -/
def stripMapsUrls (s : String) : String := ⟨urlScan s.data.length s.data⟩

/-! ## SHA-256 (`hashlib.sha256(...).hexdigest()`)

32-bit words are `Nat` reduced `% 2^32`; the bitwise operations are written
as structurally recursive bit loops so the whole digest reduces inside the
kernel. -/

def M32 : Nat := 4294967296

def xorBits : Nat → Nat → Nat → Nat
  | 0, _, _ => 0
  | fuel + 1, a, b =>
    (if a % 2 = b % 2 then 0 else 1) + 2 * xorBits fuel (a / 2) (b / 2)

def andBits : Nat → Nat → Nat → Nat
  | 0, _, _ => 0
  | fuel + 1, a, b =>
    (if a % 2 = 1 && b % 2 = 1 then 1 else 0) + 2 * andBits fuel (a / 2) (b / 2)

def xor32 (a b : Nat) : Nat := xorBits 32 a b
def and32 (a b : Nat) : Nat := andBits 32 a b
def not32 (a : Nat) : Nat := (M32 - 1) - a % M32
def rotr32 (n a : Nat) : Nat := (a / 2 ^ n + a % 2 ^ n * 2 ^ (32 - n)) % M32
def shr32 (n a : Nat) : Nat := a / 2 ^ n

def bigSigma0 (x : Nat) : Nat := xor32 (rotr32 2 x) (xor32 (rotr32 13 x) (rotr32 22 x))
def bigSigma1 (x : Nat) : Nat := xor32 (rotr32 6 x) (xor32 (rotr32 11 x) (rotr32 25 x))
def smallSigma0 (x : Nat) : Nat := xor32 (rotr32 7 x) (xor32 (rotr32 18 x) (shr32 3 x))
def smallSigma1 (x : Nat) : Nat := xor32 (rotr32 17 x) (xor32 (rotr32 19 x) (shr32 10 x))
def chFn (e f g : Nat) : Nat := xor32 (and32 e f) (and32 (not32 e) g)
def majFn (a b c : Nat) : Nat := xor32 (and32 a b) (xor32 (and32 a c) (and32 b c))

def shaK : List Nat :=
  [1116352408, 1899447441, 3049323471, 3921009573, 961987163,
   1508970993, 2453635748, 2870763221, 3624381080, 310598401,
   607225278, 1426881987, 1925078388, 2162078206, 2614888103,
   3248222580, 3835390401, 4022224774, 264347078, 604807628,
   770255983, 1249150122, 1555081692, 1996064986, 2554220882,
   2821834349, 2952996808, 3210313671, 3336571891, 3584528711,
   113926993, 338241895, 666307205, 773529912, 1294757372,
   1396182291, 1695183700, 1986661051, 2177026350, 2456956037,
   2730485921, 2820302411, 3259730800, 3345764771, 3516065817,
   3600352804, 4094571909, 275423344, 430227734, 506948616,
   659060556, 883997877, 958139571, 1322822218, 1537002063,
   1747873779, 1955562222, 2024104815, 2227730452, 2361852424,
   2428436474, 2756734187, 3204031479, 3329325298]

def shaH0 : List Nat :=
  [1779033703, 3144134277, 1013904242, 2773480762,
   1359893119, 2600822924, 528734635, 1541459225]

/-- Big-endian length field: 8 bytes of the bit length. -/
def lenBytes (n : Nat) : List Nat :=
  [n / 2 ^ 56 % 256, n / 2 ^ 48 % 256, n / 2 ^ 40 % 256, n / 2 ^ 32 % 256,
   n / 2 ^ 24 % 256, n / 2 ^ 16 % 256, n / 2 ^ 8 % 256, n % 256]

/-- Merkle–Damgård padding: `0x80`, zeros, 8-byte big-endian bit length,
to a multiple of 64 bytes. -/
def padMessage (msg : List Nat) : List Nat :=
  msg ++ [128] ++ List.replicate ((64 - (msg.length + 9) % 64) % 64) 0
      ++ lenBytes (8 * msg.length)

/-- Split into 64-byte blocks (the input is always padded, so its length is a
multiple of 64; a straggling partial block cannot occur and is dropped).
`cur` holds the current partial block reversed. -/
def toBlocks : List Nat → List Nat → List (List Nat)
  | _, [] => []
  | cur, b :: rest =>
    if cur.length = 63 then (cur.reverse ++ [b]) :: toBlocks [] rest
    else toBlocks (b :: cur) rest

/-- 4 big-endian bytes → one 32-bit word, over the whole block. -/
def toWords : List Nat → List Nat
  | b0 :: b1 :: b2 :: b3 :: rest =>
    (((b0 * 256 + b1) * 256 + b2) * 256 + b3) :: toWords rest
  | _ => []

def scheduleStep (w : List Nat) : List Nat :=
  let n := w.length
  w ++ [(w.getD (n - 16) 0 + smallSigma0 (w.getD (n - 15) 0) + w.getD (n - 7) 0
         + smallSigma1 (w.getD (n - 2) 0)) % M32]

/-- Extend the 16 message words to the 64-word schedule. -/
def schedule (w : List Nat) : List Nat :=
  (List.range 48).foldl (fun acc _ => scheduleStep acc) w

def compressStep (st : List Nat) (kw : Nat × Nat) : List Nat :=
  match st with
  | [a, b, c, d, e, f, g, h] =>
    let t1 := (h + bigSigma1 e + chFn e f g + kw.1 + kw.2) % M32
    let t2 := (bigSigma0 a + majFn a b c) % M32
    [(t1 + t2) % M32, a, b, c, (d + t1) % M32, e, f, g]
  | _ => st

def compressBlock (h : List Nat) (block : List Nat) : List Nat :=
  let st := ((shaK.zip (schedule (toWords block))).foldl compressStep h)
  (h.zip st).map (fun p => (p.1 + p.2) % M32)

def sha256Words (msg : List Nat) : List Nat :=
  (toBlocks [] (padMessage msg)).foldl compressBlock shaH0

def hexDigit (n : Nat) : Char :=
  if n < 10 then Char.ofNat (48 + n) else Char.ofNat (87 + n)

def wordHexChars (w : Nat) : List Char :=
  [hexDigit (w / 2 ^ 28 % 16), hexDigit (w / 2 ^ 24 % 16),
   hexDigit (w / 2 ^ 20 % 16), hexDigit (w / 2 ^ 16 % 16),
   hexDigit (w / 2 ^ 12 % 16), hexDigit (w / 2 ^ 8 % 16),
   hexDigit (w / 2 ^ 4 % 16), hexDigit (w % 16)]

/-- `hashlib.sha256(bytes).hexdigest()`. -/
def sha256hex (msg : List Nat) : String :=
  ⟨((sha256Words msg).map wordHexChars).flatten⟩

/-- UTF-8 encoding of one code point (python `str.encode()`). -/
def utf8Bytes (c : Nat) : List Nat :=
  if c < 128 then [c]
  else if c < 2048 then [192 + c / 64, 128 + c % 64]
  else if c < 65536 then [224 + c / 4096, 128 + c / 64 % 64, 128 + c % 64]
  else [240 + c / 262144, 128 + c / 4096 % 64, 128 + c / 64 % 64, 128 + c % 64]

/-- `s.encode()`. -/
def strBytes (s : String) : List Nat :=
  (s.data.map (fun c => utf8Bytes c.toNat)).flatten

/-- FIPS 180-4 test vector: SHA-256 of the empty message. -/
theorem sha256hex_nil :
    sha256hex [] = "e3b0c44298fc1c149afbf4c8996fb92427ae41e4649b934ca495991b7852b855" := by
  decide

/-- FIPS 180-4 test vector: SHA-256 of `"abc"`. -/
theorem sha256hex_abc :
    sha256hex (strBytes "abc") =
      "ba7816bf8f01cfea414140de5dae2223b00361a396177a9cb410ff61f20015ad" := by
  decide

/-- FIPS 180-4 test vector: a 56-byte message, whose padding spills into a
second block (exercises the multi-block path). -/
theorem sha256hex_two_blocks :
    sha256hex (strBytes "abcdbcdecdefdefgefghfghighijhijkijkljklmklmnlmnomnopnopq") =
      "248d6a61d20638b8e5c026930c3e6039a33ce45964ff2167f6ecedd419db06c1" := by
  decide

/-! ## `generate_js_hash` -/

/-- python `str(x)` for `x : str | None`. -/
def pyStr : Option String → String
  | none => "None"
  | some s => s

/-- python `str(b)` for a bool. -/
def pyBool : Bool → String
  | true => "True"
  | false => "False"

/-- `generate_js_hash(js_string, key, return_on_hover)`:
```
standardized_js = re.sub(r"(_[a-z0-9]+)", "", js_string) + str(key)
standardized_js = re.sub(r"(maps\/[-a-z0-9]+\/)", "", standardized_js)
                  + str(key) + str(return_on_hover)
return hashlib.sha256(standardized_js.encode()).hexdigest()
``` -/
def generate_js_hash (js_string : String) (key : Option String)
    (return_on_hover : Bool) : String :=
  let standardized := stripVarSuffixes js_string ++ pyStr key
  let standardized := stripMapsUrls standardized ++ pyStr key ++ pyBool return_on_hover
  sha256hex (strBytes standardized)

/-- The fingerprint exactly as claim C2 describes it: the digest of the
script with every `_<lowercase-alnum-run>` deleted, concatenated with the
caller key, concatenated with the hover flag rendered as text. -/
def claimedFingerprint (js_string : String) (key : Option String)
    (return_on_hover : Bool) : String :=
  sha256hex (strBytes (stripVarSuffixes js_string ++ pyStr key ++ pyBool return_on_hover))

/-- The amended fingerprint description: the normalised script is first
concatenated with the key, that concatenation is stripped of every
`maps/<run>/` URL fragment, and the key is then appended a *second* time
before the hover flag. -/
def amendedFingerprint (js_string : String) (key : Option String)
    (return_on_hover : Bool) : String :=
  sha256hex (strBytes
    (stripMapsUrls (stripVarSuffixes js_string ++ pyStr key)
      ++ pyStr key ++ pyBool return_on_hover))

/-- C2, counterexample: on the empty script with key `"x"` and hover off, the
code digests `"xxFalse"` (the key is appended twice) while the claim
describes the digest of `"xFalse"`; the two fixed-length hex digests
differ, so the fingerprint is not the digest the claim describes. -/
theorem c2_counterexample :
    generate_js_hash "" (some "x") false ≠ claimedFingerprint "" (some "x") false := by
  decide

/-- C2 (amended): the fingerprint returned by `generate_js_hash` equals the
fixed-length hex SHA-256 digest of: the script with every
`_<lowercase-alnum-run>` deleted, concatenated with the caller key, that
concatenation stripped of every `maps/<run>/` URL fragment, concatenated
with the caller key a second time, concatenated with the hover flag rendered
as text.  Being a pure function of the normalised script, the key and the
flag, it is bit-reproducible given identical inputs. -/
theorem c2_fingerprint_amended (js_string : String) (key : Option String)
    (return_on_hover : Bool) :
    generate_js_hash js_string key return_on_hover
      = amendedFingerprint js_string key return_on_hover := rfl

/-- C3: two scripts that agree after deleting every
`_<lowercase-alnum-run>` substring receive the same fingerprint for the same
key and hover flag. -/
theorem c3_fingerprint_stability (js1 js2 : String) (key : Option String)
    (return_on_hover : Bool) (h : stripVarSuffixes js1 = stripVarSuffixes js2) :
    generate_js_hash js1 key return_on_hover = generate_js_hash js2 key return_on_hover := by
  simp only [generate_js_hash, h]

/-- C3 witness: two concrete scripts differing only in an ephemeral
identifier suffix normalise identically and hash identically. -/
theorem c3_fingerprint_stability_witness :
    stripVarSuffixes "var map_a1b2 = L.map();" = stripVarSuffixes "var map = L.map();" ∧
    generate_js_hash "var map_a1b2 = L.map();" (some "k") false
      = generate_js_hash "var map = L.map();" (some "k") false :=
  ⟨by decide, c3_fingerprint_stability _ _ _ _ (by decide)⟩

/-! ## The object tree

A folium `MacroElement` as the traversal sees it.  The external rendering
collaborator is a black box (spec §6: "render object → raw script fragment");
its possible outcomes for a node are captured by per-node fields:

* `script`   — `m._template.module.script(m)`: `some` fragment text, or
  `none` when the collaborator raises jinja2's `UndefinedError`
  (for a dual-map node this field is the synchronisation fragment
  `m._template.module.script(m)` emitted after both panes are rendered);
* `fallback` — `m._template.render(this=m, kwargs={})`, same convention;
* `elementName` / `elementParentName` — the optional `element_name` /
  `element_parent_name` attributes (`none` = attribute missing, so reading it
  raises `AttributeError`);
* `name` — `m._name.lower()` (folium stores the class name; `get_full_id`
  always lowercases it, so the model stores the lowercased form);
* `eid` — `m._id`, the ephemeral identifier given at construction time.

`dual` is `folium.plugins.DualMap` with its two panes; the traversal code
never touches a dual node's `_children`, so the model carries only the panes. -/

structure Attrs where
  eid : String
  name : String
  script : Option String
  fallback : Option String
  elementName : Option String
  elementParentName : Option String

mutual
inductive Elem where
  | node (a : Attrs) (cs : ElemList)
  | dual (a : Attrs) (m1 m2 : Elem)
inductive ElemList where
  | nil
  | cons (c : Elem) (rest : ElemList)
end

def rootAttrs : Elem → Attrs
  | .node a _ => a
  | .dual a _ _ => a

def rootEid (m : Elem) : String := (rootAttrs m).eid

def elemName (m : Elem) : String := (rootAttrs m).name

/-- The node's ordered `_children` as iterated by the traversal loop (the
dual-map branch returns before the loop, so a dual node contributes none). -/
def elemChildren : Elem → ElemList
  | .node _ cs => cs
  | .dual _ _ _ => .nil

/-- `m._id = newId` on the root object (used by the feature-group and
layer-control transcoders before re-rendering). -/
def setRootEid : Elem → String → Elem
  | .node a cs, i => .node { a with eid := i } cs
  | .dual a m1 m2, i => .dual { a with eid := i } m1 m2

def ElemList.toList : ElemList → List Elem
  | .nil => []
  | .cons c rest => c :: rest.toList

def ElemList.idx? : ElemList → Nat → Option Elem
  | .nil, _ => none
  | .cons c _, 0 => some c
  | .cons _ rest, i + 1 => rest.idx? i

mutual
/-- All ephemeral identifiers in the tree, root first, in visit order. -/
def eids : Elem → List String
  | .node a cs => a.eid :: eidsList cs
  | .dual a m1 m2 => a.eid :: (eids m1 ++ eids m2)
def eidsList : ElemList → List String
  | .nil => []
  | .cons c rest => eids c ++ eidsList rest
end

/-- `m._template.module.script(m)` with the `except UndefinedError` fallback
to `m._template.render(this=m, kwargs={})` (only the non-dual path has this
fallback). -/
def ownScript (a : Attrs) : Option String :=
  match a.script with
  | some s => some s
  | none => a.fallback

mutual
/-- Every node of the tree renders (its own fragment or the fallback
succeeds; for a dual node: both panes recursively and the link fragment). -/
def allOk : Elem → Bool
  | .node a cs => (ownScript a).isSome && allOkList cs
  | .dual a m1 m2 => a.script.isSome && (allOk m1 && allOk m2)
def allOkList : ElemList → Bool
  | .nil => true
  | .cons c rest => allOk c && allOkList rest
end

/-- `m.element_name.replace("map_", "").replace("tile_layer_", "")`. -/
def stripMapTilePre (s : String) : String :=
  (s.replace "map_" "").replace "tile_layer_" ""

/-- Second half of the auxiliary-role block:
`if parent_id not in mappings: mappings[parent_id] = m._parent._parent._id`;
`g` is the current `_id` of `m._parent._parent` (`none` = reading it raises
`AttributeError`, which aborts with the first write already applied). -/
def auxSecond (d : Dict) (parentId : String) (g : Option String) : Dict :=
  if dictHas d parentId then d
  else
    match g with
    | none => d
    | some gv => dictSet d parentId gv

/-- The `try: element_id = ... except AttributeError: pass` block of
`_generate_leaflet_string`.  `p`/`g` are the current `_id`s of `m._parent`
and `m._parent._parent` (`none` = the read raises `AttributeError`).  The
partial-effect semantics of the python block is preserved: if the second
guarded write fails on the grandparent read, the first write stays. -/
def auxInserts (a : Attrs) (d : Dict) (p g : Option String) : Dict :=
  match a.elementName, a.elementParentName with
  | some en, some epn =>
    let elementId := stripMapTilePre en
    let parentId := stripMapTilePre epn
    if dictHas d elementId then auxSecond d parentId g
    else
      match p with
      | none => d
      | some pv => auxSecond (dictSet d elementId pv) parentId g
  | _, _ => d

mutual
/-- `_generate_leaflet_string(m, nested, base_id, mappings)`.

The python function mutates the shared `mappings` dict and each visited
node's `_id`; here the dict is threaded explicitly and the mutated parent
ids are passed down as `p`/`g` (at the time a child is visited,
`child._parent._id` is the parent's freshly assigned base id and
`child._parent._parent._id` is the grandparent's).  The first component is
`none` when the python call raises (`UndefinedError` with no usable
fallback); the second component is the state of `mappings` at that point,
exactly as the shared dict would hold it. -/
def genLeaflet : Elem → Bool → String → Dict → Option String → Option String →
    Option String × Dict
  | .node a cs, nested, b, d, p, g =>
    let d2 := auxInserts a (dictSet d a.eid b) p g
    match ownScript a with
    | none => (none, d2)
    | some s => if nested then genChildren cs 0 b s d2 p else (some s, d2)
  | .dual a m1 m2, nested, b, d, p, g =>
    let d2 := auxInserts a (dictSet d a.eid b) p g
    -- m.render(); m.m1.render(); m.m2.render(): external, no text produced here.
    -- The panes are folium Maps, which have no element_name attribute, so the
    -- auxiliary parent reads are never reached inside them.
    if nested then
      match genLeaflet m1 true b d2 none none with
      | (none, d3) => (none, d3)
      | (some l1, d3) =>
        match genLeaflet m2 true "div2" d3 none none with
        | (none, d4) => (none, d4)
        | (some l2, d4) =>
          match a.script with
          | some link => (some (l1 ++ "\n" ++ l2 ++ link), d4)
          | none => (none, d4)
    else genLeaflet m1 false b d2 none none

/-- The `for idx, child in enumerate(m._children.values())` loop.  `pb` is
the parent's just-assigned base id, `pp` the parent's own `p` (so a child
sees `p = some pb`, `g = pp`); a child whose recursive rendering raises is
skipped, keeping whatever it already wrote into the mappings. -/
def genChildren : ElemList → Nat → String → String → Dict → Option String →
    Option String × Dict
  | .nil, _, _, acc, d, _ => (some acc, d)
  | .cons c rest, idx, pb, acc, d, pp =>
    match genLeaflet c true (pb ++ "_" ++ toString idx) d (some pb) pp with
    | (some cstr, d2) => genChildren rest (idx + 1) pb (acc ++ "\n" ++ cstr) d2 pp
    | (none, d2) => genChildren rest (idx + 1) pb acc d2 pp
end

mutual
/-- The script text `_generate_leaflet_string` produces, as a function of the
tree alone (the script component of `genLeaflet` depends neither on the
mappings state nor on the base/parent ids, because fragment texts are the
collaborator's black-box outputs). -/
def renderS : Elem → Bool → Option String
  | .node a cs, nested =>
    match ownScript a with
    | none => none
    | some s => if nested then some (renderKids cs s) else some s
  | .dual a m1 m2, nested =>
    if nested then
      match renderS m1 true with
      | none => none
      | some l1 =>
        match renderS m2 true with
        | none => none
        | some l2 =>
          match a.script with
          | some link => some (l1 ++ "\n" ++ l2 ++ link)
          | none => none
    else renderS m1 false
def renderKids : ElemList → String → String
  | .nil, acc => acc
  | .cons c rest, acc =>
    match renderS c true with
    | some cstr => renderKids rest (acc ++ "\n" ++ cstr)
    | none => renderKids rest acc
end

/-! ## The stable-identifier assignment the spec describes (§4.1)

`specAssign` is written from the claim's words: the root receives `baseId`;
a child at position `idx` of its parent's ordered children receives
`"{parentStableId}_{idx}"`; the two panes of a dual node are visited under
the parent's base id and the literal `"div2"`. -/

mutual
def nodesWithIds : Elem → String → List (Elem × String)
  | m@(.node _ cs), b => (m, b) :: nodesWithIdsList cs b 0
  | m@(.dual _ m1 m2), b => (m, b) :: (nodesWithIds m1 b ++ nodesWithIds m2 "div2")
def nodesWithIdsList : ElemList → String → Nat → List (Elem × String)
  | .nil, _, _ => []
  | .cons c rest, b, idx =>
    nodesWithIds c (b ++ "_" ++ toString idx) ++ nodesWithIdsList rest b (idx + 1)
end

/-! ## Basic facts about the traversal -/

theorem dictHas_eq_false_iff (d : Dict) (k : String) :
    dictHas d k = false ↔ dictGet d k = none := by
  unfold dictHas
  cases dictGet d k <;> simp

theorem auxSecond_pres (d : Dict) (pid : String) (g : Option String) (k v : String)
    (hd : dictGet d k = some v) : dictGet (auxSecond d pid g) k = some v := by
  unfold auxSecond
  by_cases h1 : dictHas d pid = true
  · simp [h1, hd]
  · have h1' := (dictHas_eq_false_iff d pid).mp (by simpa using h1)
    simp only [h1, if_false]
    cases g with
    | none => exact hd
    | some gv =>
      have hne : k ≠ pid := by
        intro h
        rw [h, h1'] at hd
        exact Option.noConfusion hd
      simpa [dictGet_set_ne d pid gv k hne] using hd

theorem auxInserts_pres (a : Attrs) (d : Dict) (p g : Option String) (k v : String)
    (hd : dictGet d k = some v) : dictGet (auxInserts a d p g) k = some v := by
  unfold auxInserts
  cases a.elementName with
  | none => exact hd
  | some en =>
    cases a.elementParentName with
    | none => exact hd
    | some epn =>
      simp only
      by_cases h1 : dictHas d (stripMapTilePre en) = true
      · simp only [h1, if_true]
        exact auxSecond_pres _ _ _ _ _ hd
      · have h1' := (dictHas_eq_false_iff d _).mp (by simpa using h1)
        simp only [h1, if_false]
        cases p with
        | none => exact hd
        | some pv =>
          have hne : k ≠ stripMapTilePre en := by
            intro h
            rw [h, h1'] at hd
            exact Option.noConfusion hd
          exact auxSecond_pres _ _ _ _ _
            (by simpa [dictGet_set_ne d _ pv k hne] using hd)

mutual
/-- The script component of the traversal depends only on the tree and the
nesting flag. -/
theorem genLeaflet_fst (m : Elem) (nested : Bool) (b : String) (d : Dict)
    (p g : Option String) : (genLeaflet m nested b d p g).1 = renderS m nested := by
  cases m with
  | node a cs =>
    simp only [genLeaflet, renderS]
    cases hos : ownScript a with
    | none => rfl
    | some s =>
      cases nested with
      | false => rfl
      | true =>
        simpa using genChildren_fst cs 0 b s (auxInserts a (dictSet d a.eid b) p g) p
  | dual a m1 m2 =>
    simp only [genLeaflet, renderS]
    cases nested with
    | false => simpa using genLeaflet_fst m1 false b (auxInserts a (dictSet d a.eid b) p g) none none
    | true =>
      have h1 := genLeaflet_fst m1 true b (auxInserts a (dictSet d a.eid b) p g) none none
      rcases hg1 : genLeaflet m1 true b (auxInserts a (dictSet d a.eid b) p g) none none with ⟨f1, d3⟩
      rw [hg1] at h1
      cases f1 with
      | none => simp [hg1, ← h1]
      | some l1 =>
        have h2 := genLeaflet_fst m2 true "div2" d3 none none
        rcases hg2 : genLeaflet m2 true "div2" d3 none none with ⟨f2, d4⟩
        rw [hg2] at h2
        cases f2 with
        | none => simp [hg1, hg2, ← h1, ← h2]
        | some l2 =>
          cases hlink : a.script with
          | none => simp [hg1, hg2, ← h1, ← h2, hlink]
          | some link => simp [hg1, hg2, ← h1, ← h2, hlink]

theorem genChildren_fst (cs : ElemList) (idx : Nat) (pb acc : String) (d : Dict)
    (pp : Option String) : (genChildren cs idx pb acc d pp).1 = some (renderKids cs acc) := by
  cases cs with
  | nil => rfl
  | cons c rest =>
    have h := genLeaflet_fst c true (pb ++ "_" ++ toString idx) d (some pb) pp
    rcases hg : genLeaflet c true (pb ++ "_" ++ toString idx) d (some pb) pp with ⟨f, d2⟩
    rw [hg] at h
    cases f with
    | some cstr =>
      simp only [genChildren, hg, renderKids, ← h]
      exact genChildren_fst rest (idx + 1) pb (acc ++ "\n" ++ cstr) d2 pp
    | none =>
      simp only [genChildren, hg, renderKids, ← h]
      exact genChildren_fst rest (idx + 1) pb acc d2 pp
end



mutual
/-- An existing binding survives a traversal whose tree does not contain its
key: node entries use keys from the tree, and auxiliary entries are guarded
by membership. -/
theorem genLeaflet_pres (m : Elem) (nested : Bool) (b : String) (d : Dict)
    (p g : Option String) (k v : String) (hd : dictGet d k = some v)
    (hk : k ∉ eids m) : dictGet (genLeaflet m nested b d p g).2 k = some v := by
  cases m with
  | node a cs =>
    have hne : k ≠ a.eid := fun h => hk (by simp [eids, h])
    have hk' : k ∉ eidsList cs := fun h => hk (by simp [eids, h])
    have h2 : dictGet (auxInserts a (dictSet d a.eid b) p g) k = some v :=
      auxInserts_pres a _ p g k v (by rw [dictGet_set_ne d a.eid b k hne]; exact hd)
    simp only [genLeaflet]
    cases hos : ownScript a with
    | none => exact h2
    | some s =>
      cases nested with
      | false => exact h2
      | true => exact genChildren_pres cs 0 b s _ p k v h2 hk'
  | dual a m1 m2 =>
    have hne : k ≠ a.eid := fun h => hk (by simp [eids, h])
    have hk1 : k ∉ eids m1 := fun h => hk (by simp [eids, h])
    have hk2 : k ∉ eids m2 := fun h => hk (by simp [eids, h])
    have h2 : dictGet (auxInserts a (dictSet d a.eid b) p g) k = some v :=
      auxInserts_pres a _ p g k v (by rw [dictGet_set_ne d a.eid b k hne]; exact hd)
    simp only [genLeaflet]
    cases nested with
    | false => exact genLeaflet_pres m1 false b _ none none k v h2 hk1
    | true =>
      have h3 := genLeaflet_pres m1 true b (auxInserts a (dictSet d a.eid b) p g) none none k v h2 hk1
      rcases hg1 : genLeaflet m1 true b (auxInserts a (dictSet d a.eid b) p g) none none with ⟨f1, d3⟩
      rw [hg1] at h3
      cases f1 with
      | none => simpa [hg1] using h3
      | some l1 =>
        have h4 := genLeaflet_pres m2 true "div2" d3 none none k v h3 hk2
        rcases hg2 : genLeaflet m2 true "div2" d3 none none with ⟨f2, d4⟩
        rw [hg2] at h4
        cases f2 with
        | none => simpa [hg1, hg2] using h4
        | some l2 =>
          cases hlink : a.script with
          | none => simpa [hg1, hg2, hlink] using h4
          | some link => simpa [hg1, hg2, hlink] using h4

theorem genChildren_pres (cs : ElemList) (idx : Nat) (pb acc : String) (d : Dict)
    (pp : Option String) (k v : String) (hd : dictGet d k = some v)
    (hk : k ∉ eidsList cs) : dictGet (genChildren cs idx pb acc d pp).2 k = some v := by
  cases cs with
  | nil => exact hd
  | cons c rest =>
    have hkc : k ∉ eids c := fun h => hk (by simp [eidsList, h])
    have hkr : k ∉ eidsList rest := fun h => hk (by simp [eidsList, h])
    have h2 := genLeaflet_pres c true (pb ++ "_" ++ toString idx) d (some pb) pp k v hd hkc
    rcases hg : genLeaflet c true (pb ++ "_" ++ toString idx) d (some pb) pp with ⟨f, d2⟩
    rw [hg] at h2
    cases f with
    | some cstr =>
      simp only [genChildren, hg]
      exact genChildren_pres rest (idx + 1) pb (acc ++ "\n" ++ cstr) d2 pp k v h2 hkr
    | none =>
      simp only [genChildren, hg]
      exact genChildren_pres rest (idx + 1) pb acc d2 pp k v h2 hkr
end

/-- Under `allOk` the traversal's script component is produced (nothing
raises at the root). -/
theorem renderS_isSome_of_allOk (m : Elem) (h : allOk m = true) :
    (renderS m true).isSome = true := by
  cases m with
  | node a cs =>
    have h1 : (ownScript a).isSome = true := by
      simp only [allOk, Bool.and_eq_true] at h
      exact h.1
    rcases hos : ownScript a with _ | s
    · rw [hos] at h1; exact absurd h1 (by simp)
    · simp [renderS, hos]
  | dual a m1 m2 =>
    simp only [allOk, Bool.and_eq_true] at h
    obtain ⟨hlink, h1, h2⟩ := h
    have r1 := renderS_isSome_of_allOk m1 h1
    have r2 := renderS_isSome_of_allOk m2 h2
    rcases hr1 : renderS m1 true with _ | l1
    · rw [hr1] at r1; exact absurd r1 (by simp)
    · rcases hr2 : renderS m2 true with _ | l2
      · rw [hr2] at r2; exact absurd r2 (by simp)
      · rcases hl : a.script with _ | link
        · rw [hl] at hlink; exact absurd hlink (by simp)
        · simp [renderS, hr1, hr2, hl]


/-- Every tree is the first entry of its own visit list. -/
theorem self_mem_nodesWithIds (m : Elem) (b : String) : (m, b) ∈ nodesWithIds m b := by
  cases m <;> simp [nodesWithIds]

mutual
theorem rootEid_mem_eids (m : Elem) (b : String) (q : Elem) (s : String)
    (h : (q, s) ∈ nodesWithIds m b) : rootEid q ∈ eids m := by
  cases m with
  | node a cs =>
    rcases (by simpa [nodesWithIds] using h :
        q = Elem.node a cs ∧ s = b ∨ (q, s) ∈ nodesWithIdsList cs b 0) with ⟨rfl, rfl⟩ | hl
    · simp [eids, rootEid, rootAttrs]
    · simp only [eids, List.mem_cons]
      exact Or.inr (rootEid_mem_eidsList cs b 0 q s hl)
  | dual a m1 m2 =>
    rcases (by simpa [nodesWithIds] using h :
        q = Elem.dual a m1 m2 ∧ s = b ∨ (q, s) ∈ nodesWithIds m1 b ∨
          (q, s) ∈ nodesWithIds m2 "div2") with ⟨rfl, rfl⟩ | h1 | h2
    · simp [eids, rootEid, rootAttrs]
    · simp only [eids, List.mem_cons, List.mem_append]
      exact Or.inr (Or.inl (rootEid_mem_eids m1 b q s h1))
    · simp only [eids, List.mem_cons, List.mem_append]
      exact Or.inr (Or.inr (rootEid_mem_eids m2 "div2" q s h2))

theorem rootEid_mem_eidsList (cs : ElemList) (b : String) (idx : Nat) (q : Elem)
    (s : String) (h : (q, s) ∈ nodesWithIdsList cs b idx) : rootEid q ∈ eidsList cs := by
  cases cs with
  | nil => simp [nodesWithIdsList] at h
  | cons c rest =>
    rcases (by simpa [nodesWithIdsList] using h :
        (q, s) ∈ nodesWithIds c (b ++ "_" ++ toString idx) ∨
          (q, s) ∈ nodesWithIdsList rest b (idx + 1)) with h1 | h2
    · simp only [eidsList, List.mem_append]
      exact Or.inl (rootEid_mem_eids c _ q s h1)
    · simp only [eidsList, List.mem_append]
      exact Or.inr (rootEid_mem_eidsList rest b (idx + 1) q s h2)
end

mutual
theorem exists_nodesWithIds_of_eid (m : Elem) (b : String) (k : String)
    (h : k ∈ eids m) : ∃ q s, (q, s) ∈ nodesWithIds m b ∧ rootEid q = k := by
  cases m with
  | node a cs =>
    rcases (by simpa [eids] using h : k = a.eid ∨ k ∈ eidsList cs) with rfl | hl
    · exact ⟨.node a cs, b, self_mem_nodesWithIds _ b, by simp [rootEid, rootAttrs]⟩
    · obtain ⟨q, s, hq, hk⟩ := exists_nodesWithIdsList_of_eid cs b 0 k hl
      exact ⟨q, s, by simp [nodesWithIds, hq], hk⟩
  | dual a m1 m2 =>
    rcases (by simpa [eids] using h :
        k = a.eid ∨ k ∈ eids m1 ∨ k ∈ eids m2) with rfl | h1 | h2
    · exact ⟨.dual a m1 m2, b, self_mem_nodesWithIds _ b, by simp [rootEid, rootAttrs]⟩
    · obtain ⟨q, s, hq, hk⟩ := exists_nodesWithIds_of_eid m1 b k h1
      exact ⟨q, s, by simp [nodesWithIds, hq], hk⟩
    · obtain ⟨q, s, hq, hk⟩ := exists_nodesWithIds_of_eid m2 "div2" k h2
      exact ⟨q, s, by simp [nodesWithIds, hq], hk⟩

theorem exists_nodesWithIdsList_of_eid (cs : ElemList) (b : String) (idx : Nat)
    (k : String) (h : k ∈ eidsList cs) :
    ∃ q s, (q, s) ∈ nodesWithIdsList cs b idx ∧ rootEid q = k := by
  cases cs with
  | nil => simp [eidsList] at h
  | cons c rest =>
    rcases (by simpa [eidsList] using h : k ∈ eids c ∨ k ∈ eidsList rest) with h1 | h2
    · obtain ⟨q, s, hq, hk⟩ := exists_nodesWithIds_of_eid c (b ++ "_" ++ toString idx) k h1
      exact ⟨q, s, by simp [nodesWithIdsList, hq], hk⟩
    · obtain ⟨q, s, hq, hk⟩ := exists_nodesWithIdsList_of_eid rest b (idx + 1) k h2
      exact ⟨q, s, by simp [nodesWithIdsList, hq], hk⟩
end

/-- A child found at position `i` of an `ElemList` appears in the visit list
under `"{base}_{idx+i}"`. -/
theorem idx_mem_nodesWithIdsList (cs : ElemList) (b : String) (idx i : Nat) (c : Elem)
    (h : cs.idx? i = some c) :
    (c, b ++ "_" ++ toString (idx + i)) ∈ nodesWithIdsList cs b idx := by
  cases cs with
  | nil => simp [ElemList.idx?] at h
  | cons c0 rest =>
    cases i with
    | zero =>
      have : c0 = c := by simpa [ElemList.idx?] using h
      subst this
      simp only [nodesWithIdsList, List.mem_append, Nat.add_zero]
      exact Or.inl (self_mem_nodesWithIds c0 _)
    | succ j =>
      have h' : rest.idx? j = some c := by simpa [ElemList.idx?] using h
      have hrec := idx_mem_nodesWithIdsList rest b (idx + 1) j c h'
      simp only [nodesWithIdsList, List.mem_append]
      right
      have harith : idx + 1 + j = idx + (j + 1) := by omega
      rwa [harith] at hrec

mutual
/-- A visited node's child at position `i` is itself visited, under the
stable id `"{parent}_{i}"`. -/
theorem child_mem_nodesWithIds (m : Elem) (b : String) (q : Elem) (s : String)
    (hq : (q, s) ∈ nodesWithIds m b) (i : Nat) (c : Elem)
    (hc : (elemChildren q).idx? i = some c) :
    (c, s ++ "_" ++ toString i) ∈ nodesWithIds m b := by
  cases m with
  | node a cs =>
    rcases (by simpa [nodesWithIds] using hq :
        q = Elem.node a cs ∧ s = b ∨ (q, s) ∈ nodesWithIdsList cs b 0) with ⟨rfl, rfl⟩ | hl
    · have := idx_mem_nodesWithIdsList cs s 0 i c (by simpa [elemChildren] using hc)
      simp only [nodesWithIds, List.mem_cons]
      right
      simpa using this
    · simp only [nodesWithIds, List.mem_cons]
      exact Or.inr (child_mem_nodesWithIdsList cs b 0 q s hl i c hc)
  | dual a m1 m2 =>
    rcases (by simpa [nodesWithIds] using hq :
        q = Elem.dual a m1 m2 ∧ s = b ∨ (q, s) ∈ nodesWithIds m1 b ∨
          (q, s) ∈ nodesWithIds m2 "div2") with ⟨rfl, rfl⟩ | h1 | h2
    · simp [elemChildren, ElemList.idx?] at hc
    · simp only [nodesWithIds, List.mem_cons, List.mem_append]
      exact Or.inr (Or.inl (child_mem_nodesWithIds m1 b q s h1 i c hc))
    · simp only [nodesWithIds, List.mem_cons, List.mem_append]
      exact Or.inr (Or.inr (child_mem_nodesWithIds m2 "div2" q s h2 i c hc))

theorem child_mem_nodesWithIdsList (cs : ElemList) (b : String) (idx : Nat) (q : Elem)
    (s : String) (hq : (q, s) ∈ nodesWithIdsList cs b idx) (i : Nat) (c : Elem)
    (hc : (elemChildren q).idx? i = some c) :
    (c, s ++ "_" ++ toString i) ∈ nodesWithIdsList cs b idx := by
  cases cs with
  | nil => simp [nodesWithIdsList] at hq
  | cons c0 rest =>
    rcases (by simpa [nodesWithIdsList] using hq :
        (q, s) ∈ nodesWithIds c0 (b ++ "_" ++ toString idx) ∨
          (q, s) ∈ nodesWithIdsList rest b (idx + 1)) with h1 | h2
    · simp only [nodesWithIdsList, List.mem_append]
      exact Or.inl (child_mem_nodesWithIds c0 _ q s h1 i c hc)
    · simp only [nodesWithIdsList, List.mem_append]
      exact Or.inr (child_mem_nodesWithIdsList rest b (idx + 1) q s h2 i c hc)
end


mutual
/-- Master lemma: in a tree with pairwise-distinct ephemeral identifiers in
which every node renders, the mapping built by the traversal sends the
ephemeral id of every visited node to that node's stable id. -/
theorem genLeaflet_master (m : Elem) (b : String) (d : Dict) (p g : Option String)
    (hnd : (eids m).Nodup) (hok : allOk m = true) (q : Elem) (s : String)
    (hq : (q, s) ∈ nodesWithIds m b) :
    dictGet (genLeaflet m true b d p g).2 (rootEid q) = some s := by
  cases m with
  | node a cs =>
    have hok' : (ownScript a).isSome = true ∧ allOkList cs = true := by
      simpa [allOk, Bool.and_eq_true] using hok
    obtain ⟨s0, hs0⟩ := Option.isSome_iff_exists.mp hok'.1
    have hnd' : a.eid ∉ eidsList cs ∧ (eidsList cs).Nodup := by
      simpa [eids, List.nodup_cons] using hnd
    rcases (by simpa [nodesWithIds] using hq :
        q = Elem.node a cs ∧ s = b ∨ (q, s) ∈ nodesWithIdsList cs b 0) with ⟨hq1, hq2⟩ | hl
    · subst hq1; rw [hq2]
      have hd2 : dictGet (auxInserts a (dictSet d a.eid b) p g) a.eid = some b :=
        auxInserts_pres a _ p g a.eid b (dictGet_set_self d a.eid b)
      simp only [genLeaflet, hs0, if_true, rootEid, rootAttrs]
      exact genChildren_pres cs 0 b s0 _ p a.eid b hd2 hnd'.1
    · simp only [genLeaflet, hs0, if_true]
      exact genChildren_master cs 0 b s0 _ p hnd'.2 hok'.2 q s hl
  | dual a m1 m2 =>
    have hok' : a.script.isSome = true ∧ allOk m1 = true ∧ allOk m2 = true := by
      simpa [allOk, Bool.and_eq_true] using hok
    obtain ⟨hlinkS, hok1, hok2⟩ := hok'
    obtain ⟨link, hlink⟩ := Option.isSome_iff_exists.mp hlinkS
    have hndc : (a.eid ∉ eids m1 ∧ a.eid ∉ eids m2) ∧ (eids m1 ++ eids m2).Nodup := by
      simpa [eids, List.nodup_cons] using hnd
    have hndapp := List.nodup_append.mp hndc.2
    have hfst1 := genLeaflet_fst m1 true b (auxInserts a (dictSet d a.eid b) p g) none none
    have hs1 := renderS_isSome_of_allOk m1 hok1
    rcases hg1 : genLeaflet m1 true b (auxInserts a (dictSet d a.eid b) p g) none none
      with ⟨f1, d3⟩
    rw [hg1] at hfst1
    obtain ⟨l1, rfl⟩ : ∃ l1, f1 = some l1 := by
      rcases f1 with _ | l1
      · exact absurd hs1 (by rw [← hfst1]; simp)
      · exact ⟨l1, rfl⟩
    have hfst2 := genLeaflet_fst m2 true "div2" d3 none none
    have hs2 := renderS_isSome_of_allOk m2 hok2
    rcases hg2 : genLeaflet m2 true "div2" d3 none none with ⟨f2, d4⟩
    rw [hg2] at hfst2
    obtain ⟨l2, rfl⟩ : ∃ l2, f2 = some l2 := by
      rcases f2 with _ | l2
      · exact absurd hs2 (by rw [← hfst2]; simp)
      · exact ⟨l2, rfl⟩
    have hred : (genLeaflet (.dual a m1 m2) true b d p g).2 = d4 := by
      simp [genLeaflet, hg1, hg2, hlink]
    rw [hred]
    rcases (by simpa [nodesWithIds] using hq :
        q = Elem.dual a m1 m2 ∧ s = b ∨ (q, s) ∈ nodesWithIds m1 b ∨
          (q, s) ∈ nodesWithIds m2 "div2") with ⟨hq1, hq2⟩ | h1 | h2
    · subst hq1; rw [hq2]
      have e1 : dictGet (auxInserts a (dictSet d a.eid b) p g) a.eid = some b :=
        auxInserts_pres a _ p g a.eid b (dictGet_set_self d a.eid b)
      have e2 := genLeaflet_pres m1 true b (auxInserts a (dictSet d a.eid b) p g)
        none none a.eid b e1 hndc.1.1
      rw [hg1] at e2
      have e3 := genLeaflet_pres m2 true "div2" d3 none none a.eid b e2 hndc.1.2
      rw [hg2] at e3
      simpa [rootEid, rootAttrs] using e3
    · have e1 := genLeaflet_master m1 b (auxInserts a (dictSet d a.eid b) p g)
        none none hndapp.1 hok1 q s h1
      rw [hg1] at e1
      have hmem := rootEid_mem_eids m1 b q s h1
      have e2 := genLeaflet_pres m2 true "div2" d3 none none _ _ e1
        (fun h => hndapp.2.2 hmem h)
      rw [hg2] at e2
      exact e2
    · have e1 := genLeaflet_master m2 "div2" d3 none none hndapp.2.1 hok2 q s h2
      rw [hg2] at e1
      exact e1

theorem genChildren_master (cs : ElemList) (idx : Nat) (pb acc : String) (d : Dict)
    (pp : Option String) (hnd : (eidsList cs).Nodup) (hok : allOkList cs = true)
    (q : Elem) (s : String) (hq : (q, s) ∈ nodesWithIdsList cs pb idx) :
    dictGet (genChildren cs idx pb acc d pp).2 (rootEid q) = some s := by
  cases cs with
  | nil => simp [nodesWithIdsList] at hq
  | cons c rest =>
    have hok' : allOk c = true ∧ allOkList rest = true := by
      simpa [allOkList, Bool.and_eq_true] using hok
    have hndapp : (eids c).Nodup ∧ (eidsList rest).Nodup ∧ (eids c).Disjoint (eidsList rest) := by
      rw [show eidsList (.cons c rest) = eids c ++ eidsList rest from rfl] at hnd
      exact List.nodup_append.mp hnd
    have hfst := genLeaflet_fst c true (pb ++ "_" ++ toString idx) d (some pb) pp
    have hssome := renderS_isSome_of_allOk c hok'.1
    rcases hg : genLeaflet c true (pb ++ "_" ++ toString idx) d (some pb) pp with ⟨f, d2⟩
    rw [hg] at hfst
    obtain ⟨cstr, rfl⟩ : ∃ cstr, f = some cstr := by
      rcases f with _ | cstr
      · exact absurd hssome (by rw [← hfst]; simp)
      · exact ⟨cstr, rfl⟩
    rcases (by simpa [nodesWithIdsList] using hq :
        (q, s) ∈ nodesWithIds c (pb ++ "_" ++ toString idx) ∨
          (q, s) ∈ nodesWithIdsList rest pb (idx + 1)) with h1 | h2
    · have e1 := genLeaflet_master c (pb ++ "_" ++ toString idx) d (some pb) pp
        hndapp.1 hok'.1 q s h1
      rw [hg] at e1
      have hmem := rootEid_mem_eids c _ q s h1
      simp only [genChildren, hg]
      exact genChildren_pres rest (idx + 1) pb (acc ++ "\n" ++ cstr) d2 pp _ _ e1
        (fun h => hndapp.2.2 hmem h)
    · simp only [genChildren, hg]
      exact genChildren_master rest (idx + 1) pb (acc ++ "\n" ++ cstr) d2 pp
        hndapp.2.1 hok'.2 q s h2
end

/-- C1: a traversal started with base identifier `baseId` (on a tree with
pairwise-distinct ephemeral identifiers, all of whose nodes render, so that
every node is visited) produces a mapping that (i) records
`ephemeralId → stableId` for every visited node, (ii) assigns the root the
stable identifier `baseId`, and (iii) assigns every child at position `idx`
of its parent's ordered children the stable identifier
`"{parentStableId}_{idx}"`. -/
theorem c1_identifier_remapping (m : Elem) (baseId : String) (d : Dict)
    (p g : Option String) (hnd : (eids m).Nodup) (hok : allOk m = true) :
    (∀ q s, (q, s) ∈ nodesWithIds m baseId →
      dictGet (genLeaflet m true baseId d p g).2 (rootEid q) = some s) ∧
    dictGet (genLeaflet m true baseId d p g).2 (rootEid m) = some baseId ∧
    (∀ q s, (q, s) ∈ nodesWithIds m baseId →
      ∀ i c, (elemChildren q).idx? i = some c →
        dictGet (genLeaflet m true baseId d p g).2 (rootEid c)
          = some (s ++ "_" ++ toString i)) := by
  refine ⟨?_, ?_, ?_⟩
  · intro q s hq
    exact genLeaflet_master m baseId d p g hnd hok q s hq
  · exact genLeaflet_master m baseId d p g hnd hok m baseId (self_mem_nodesWithIds m baseId)
  · intro q s hq i c hc
    exact genLeaflet_master m baseId d p g hnd hok c _
      (child_mem_nodesWithIds m baseId q s hq i c hc)

/-- A concrete two-level tree with distinct ephemeral identifiers (one child
rendered through the fallback path). -/
def c1Tree : Elem :=
  .node ⟨"eph4f9d", "map", some "var A;", none, none, none⟩
    (.cons (.node ⟨"eph77aa", "marker", some "var B;", none, none, none⟩ .nil)
      (.cons (.node ⟨"ephc01d", "popup", none, some "var C;", none, none⟩ .nil) .nil))

/-- C1 witness: on `c1Tree` under base `"div"`, the hypotheses hold by
computation and the remapping sends the root's ephemeral id to `"div"` and
the second child's to `"div_1"`. -/
theorem c1_identifier_remapping_witness :
    (eids c1Tree).Nodup ∧ allOk c1Tree = true ∧
    dictGet (genLeaflet c1Tree true "div" [] none none).2 "eph4f9d" = some "div" ∧
    dictGet (genLeaflet c1Tree true "div" [] none none).2 "ephc01d" = some "div_1" := by
  refine ⟨by decide, by decide, ?_, ?_⟩
  · exact (c1_identifier_remapping c1Tree "div" [] none none (by decide) (by decide)).2.1
  · exact (c1_identifier_remapping c1Tree "div" [] none none (by decide) (by decide)).1
      (.node ⟨"ephc01d", "popup", none, some "var C;", none, none⟩ .nil) "div_1"
      (by simp [c1Tree, nodesWithIds, nodesWithIdsList]; decide)


/-! ## C4: the dual-map branch -/

/-- A dual map whose panes are plain single maps. -/
def c4Pane1 : Elem := .node ⟨"ephm1", "map", some "var P1;", none, none, none⟩ .nil

def c4Pane2 : Elem := .node ⟨"ephm2", "map", some "var P2;", none, none, none⟩ .nil

def c4Dual : Elem :=
  .dual ⟨"ephdd", "dualmap", some "sync(P1, P2);", none, none, none⟩ c4Pane1 c4Pane2

/-- C4 counterexample: the claim promises pane 2 a base identifier *distinct
from pane 1's* for every starting `baseId`, but rendering a dual node with
`baseId = "div2"` (a value the public `generate_leaflet_string` accepts)
assigns both panes the same stable base identifier `"div2"`. -/
theorem c4_counterexample :
    dictGet (genLeaflet c4Dual true "div2" ([] : Dict) none none).2 "ephm1"
      = dictGet (genLeaflet c4Dual true "div2" ([] : Dict) none none).2 "ephm2" ∧
    dictGet (genLeaflet c4Dual true "div2" ([] : Dict) none none).2 "ephm1"
      = some "div2" := by
  decide

/-- C4 (amended): rendering a dual-map node with `nested = true` under a base
identifier `baseId ≠ "div2"` yields the concatenation, in order, of pane 1's
full rendering (visited under `baseId`), pane 2's full rendering (visited
under the literal base identifier `"div2"`, distinct from pane 1's), and the
linking fragment from the dual node's own rendering; with `nested = false`
only the first pane is rendered (non-nested). -/
theorem c4_dual_map (a : Attrs) (m1 m2 : Elem) (b : String) (d : Dict)
    (p g : Option String) (hnd : (eids (Elem.dual a m1 m2)).Nodup)
    (hok : allOk (Elem.dual a m1 m2) = true) (hb : b ≠ "div2") :
    ∃ l1 l2 link,
      renderS m1 true = some l1 ∧ renderS m2 true = some l2 ∧ a.script = some link ∧
      (genLeaflet (Elem.dual a m1 m2) true b d p g).1 = some (l1 ++ "\n" ++ l2 ++ link) ∧
      dictGet (genLeaflet (Elem.dual a m1 m2) true b d p g).2 (rootEid m1) = some b ∧
      dictGet (genLeaflet (Elem.dual a m1 m2) true b d p g).2 (rootEid m2) = some "div2" ∧
      ("div2" : String) ≠ b ∧
      (genLeaflet (Elem.dual a m1 m2) false b d p g).1 = renderS m1 false := by
  have hok' : a.script.isSome = true ∧ allOk m1 = true ∧ allOk m2 = true := by
    simpa [allOk, Bool.and_eq_true] using hok
  obtain ⟨hlinkS, hok1, hok2⟩ := hok'
  obtain ⟨link, hlink⟩ := Option.isSome_iff_exists.mp hlinkS
  obtain ⟨l1, hl1⟩ := Option.isSome_iff_exists.mp (renderS_isSome_of_allOk m1 hok1)
  obtain ⟨l2, hl2⟩ := Option.isSome_iff_exists.mp (renderS_isSome_of_allOk m2 hok2)
  refine ⟨l1, l2, link, hl1, hl2, hlink, ?_, ?_, ?_, Ne.symm hb, ?_⟩
  · rw [genLeaflet_fst]
    simp [renderS, hl1, hl2, hlink]
  · refine genLeaflet_master _ b d p g hnd hok m1 b ?_
    show (m1, b) ∈ nodesWithIds (Elem.dual a m1 m2) b
    simp only [nodesWithIds, List.mem_cons, List.mem_append]
    exact Or.inr (Or.inl (self_mem_nodesWithIds m1 b))
  · refine genLeaflet_master _ b d p g hnd hok m2 "div2" ?_
    show (m2, "div2") ∈ nodesWithIds (Elem.dual a m1 m2) b
    simp only [nodesWithIds, List.mem_cons, List.mem_append]
    exact Or.inr (Or.inr (self_mem_nodesWithIds m2 "div2"))
  · exact genLeaflet_fst (Elem.dual a m1 m2) false b d p g

/-- C4 witness: the amended theorem applied to `c4Dual` under the entry
point's base `"div"`. -/
theorem c4_dual_map_witness :
    (eids c4Dual).Nodup ∧ allOk c4Dual = true ∧ ("div" : String) ≠ "div2" ∧
    (∃ l1 l2 link,
      renderS c4Pane1 true = some l1 ∧ renderS c4Pane2 true = some l2 ∧
      (⟨"ephdd", "dualmap", some "sync(P1, P2);", none, none, none⟩ : Attrs).script
        = some link ∧
      (genLeaflet c4Dual true "div" ([] : Dict) none none).1
        = some (l1 ++ "\n" ++ l2 ++ link) ∧
      dictGet (genLeaflet c4Dual true "div" ([] : Dict) none none).2 (rootEid c4Pane1)
        = some "div" ∧
      dictGet (genLeaflet c4Dual true "div" ([] : Dict) none none).2 (rootEid c4Pane2)
        = some "div2" ∧
      ("div2" : String) ≠ "div" ∧
      (genLeaflet c4Dual false "div" ([] : Dict) none none).1 = renderS c4Pane1 false) :=
  ⟨by decide, by decide, by decide,
    c4_dual_map _ c4Pane1 c4Pane2 "div" ([] : Dict) none none
      (by decide) (by decide) (by decide)⟩

/-! ## C5: partial-failure tolerance of the child loop -/

def strJoin : List String → String
  | [] => ""
  | x :: xs => x ++ strJoin xs

theorem renderKids_eq (cs : ElemList) (acc : String) :
    renderKids cs acc
      = acc ++ strJoin (cs.toList.filterMap
          (fun c => (renderS c true).map (fun f => "\n" ++ f))) := by
  cases cs with
  | nil => simp [renderKids, ElemList.toList, strJoin]
  | cons c rest =>
    cases hr : renderS c true with
    | none =>
      simp only [renderKids, hr, ElemList.toList, List.filterMap_cons]
      simpa using renderKids_eq rest acc
    | some f =>
      simp only [renderKids, hr, ElemList.toList, List.filterMap_cons]
      have := renderKids_eq rest (acc ++ "\n" ++ f)
      simp only [this]
      simp [strJoin, String.append_assoc]

theorem filterMap_eq_map_of_all {α β : Type} (f : α → Option β) (gm : α → β)
    (l : List α) (h : ∀ i (hi : i < l.length), f (l.get ⟨i, hi⟩) = some (gm (l.get ⟨i, hi⟩))) :
    l.filterMap f = l.map gm := by
  induction l with
  | nil => rfl
  | cons c rest ih =>
    have h0 := h 0 (by simp)
    simp only [List.get] at h0
    simp only [List.filterMap_cons, h0, List.map_cons]
    rw [ih (fun i hi => h (i + 1) (by simpa using Nat.succ_lt_succ hi))]

/-- If `f` fails at exactly index `j` and agrees with `gm` everywhere else,
`filterMap` drops exactly the `j`-th entry. -/
theorem filterMap_single_fail {α β : Type} (f : α → Option β) (gm : α → β)
    (l : List α) (j : Nat) (hj : j < l.length)
    (hfail : f (l.get ⟨j, hj⟩) = none)
    (hok : ∀ i (hi : i < l.length), i ≠ j → f (l.get ⟨i, hi⟩) = some (gm (l.get ⟨i, hi⟩))) :
    l.filterMap f = (l.eraseIdx j).map gm := by
  induction l generalizing j with
  | nil => simp at hj
  | cons c rest ih =>
    cases j with
    | zero =>
      simp only [List.get] at hfail
      simp only [List.filterMap_cons, hfail, List.eraseIdx_cons_zero]
      exact filterMap_eq_map_of_all f gm rest
        (fun i hi => by
          have := hok (i + 1) (Nat.succ_lt_succ hi) (by omega)
          simpa [List.get] using this)
    | succ j' =>
      have h0 := hok 0 (by simp) (by omega)
      simp only [List.get] at h0
      simp only [List.filterMap_cons, h0, List.eraseIdx_cons_succ, List.map_cons]
      congr 1
      exact ih j' (Nat.lt_of_succ_lt_succ hj)
        (by simpa [List.get] using hfail)
        (fun i hi hne => by
          have := hok (i + 1) (Nat.succ_lt_succ hi) (by omega)
          simpa [List.get] using this)

/-- C5: in a tree whose root renders and in which exactly one child's
rendering raises the undefined-template failure (its fallback included: its
recursive rendering produces nothing), the traversal returns normally and
its script is the root's own fragment followed by the fragments of every
other child in order; only the failing child's fragment is omitted. -/
theorem c5_partial_failure (a : Attrs) (cs : ElemList) (b : String) (d : Dict)
    (p g : Option String) (s0 : String) (j : Nat) (hj : j < cs.toList.length)
    (hown : ownScript a = some s0)
    (hfail : renderS (cs.toList.get ⟨j, hj⟩) true = none)
    (hok : ∀ i (hi : i < cs.toList.length), i ≠ j →
      (renderS (cs.toList.get ⟨i, hi⟩) true).isSome = true) :
    (genLeaflet (.node a cs) true b d p g).1
      = some (s0 ++ strJoin ((cs.toList.eraseIdx j).map
          (fun c => "\n" ++ ((renderS c true).getD "")))) ∧
    ((genLeaflet (.node a cs) true b d p g).1).isSome = true := by
  have h1 : (genLeaflet (.node a cs) true b d p g).1 = renderS (.node a cs) true :=
    genLeaflet_fst _ _ _ _ _ _
  have h2 : renderS (.node a cs) true = some (renderKids cs s0) := by
    simp [renderS, hown]
  have h4 : cs.toList.filterMap (fun c => (renderS c true).map (fun f => "\n" ++ f))
      = (cs.toList.eraseIdx j).map (fun c => "\n" ++ ((renderS c true).getD "")) := by
    apply filterMap_single_fail _ _ _ j hj
    · rw [hfail]; rfl
    · intro i hi hne
      obtain ⟨v, hv⟩ := Option.isSome_iff_exists.mp (hok i hi hne)
      rw [hv]
      simp
  constructor
  · rw [h1, h2, renderKids_eq, h4]
  · rw [h1, h2]
    rfl

/-- A root with three children whose middle child fails to render (its
template and its fallback both raise the undefined-template failure). -/
def c5Parent : Elem :=
  .node ⟨"ephP", "map", some "var P;", none, none, none⟩
    (.cons (.node ⟨"ephA", "marker", some "var A;", none, none, none⟩ .nil)
      (.cons (.node ⟨"ephBAD", "popup", none, none, none, none⟩ .nil)
        (.cons (.node ⟨"ephC", "circle", some "var C;", none, none, none⟩ .nil) .nil)))

/-- C5 witness: on `c5Parent` the middle child is omitted, its two siblings'
fragments survive in order, and the render returns normally. -/
theorem c5_partial_failure_witness :
    renderS (.node ⟨"ephBAD", "popup", none, none, none, none⟩ .nil) true = none ∧
    (genLeaflet c5Parent true "div" ([] : Dict) none none).1
      = some ("var P;" ++ strJoin ["\n" ++ "var A;", "\n" ++ "var C;"]) := by
  constructor
  · decide
  · have h := (c5_partial_failure ⟨"ephP", "map", some "var P;", none, none, none⟩
      (.cons (.node ⟨"ephA", "marker", some "var A;", none, none, none⟩ .nil)
        (.cons (.node ⟨"ephBAD", "popup", none, none, none, none⟩ .nil)
          (.cons (.node ⟨"ephC", "circle", some "var C;", none, none, none⟩ .nil) .nil)))
      "div" ([] : Dict) none none "var P;" 1 (by decide) (by decide) (by decide)
      (by decide)).1
    exact h.trans (by decide)


/-! ## Text utilities: python `str.replace`, `in`, `textwrap.dedent` -/

/-- python `pat in s` (substring containment) on character lists. -/
def containsChars : List Char → List Char → Bool
  | [], pat => pat.isEmpty
  | l@(_ :: rest), pat => pat.isPrefixOf l || containsChars rest pat

/-- python `pat in s`. -/
def containsSub (s pat : String) : Bool := containsChars s.data pat.data

theorem containsChars_of_isPrefixOf (t pat : List Char) (h : pat.isPrefixOf t = true) :
    containsChars t pat = true := by
  cases t with
  | nil =>
    cases pat with
    | nil => rfl
    | cons c cs => simp [List.isPrefixOf] at h
  | cons c rest => simp [containsChars, h]

theorem containsChars_append_right (s t pat : List Char)
    (h : containsChars t pat = true) : containsChars (s ++ t) pat = true := by
  induction s with
  | nil => simpa using h
  | cons c rest ih => simp [containsChars, ih]

theorem containsChars_sandwich (a pat b : List Char) :
    containsChars (a ++ (pat ++ b)) pat = true :=
  containsChars_append_right a _ _
    (containsChars_of_isPrefixOf _ _ (List.isPrefixOf_iff_prefix.mpr ⟨b, rfl⟩))

/-- python `s.replace(pat, rep)` (all occurrences, left to right,
non-overlapping).  The scan advances at least one character per step, so
`length` fuel (structural, hence kernel-computable) is exact; the guard on an
empty pattern is never hit by the call sites, which all pass literals. -/
def replChars : Nat → List Char → List Char → List Char → List Char
  | 0, s, _, _ => s
  | _ + 1, [], _, _ => []
  | fuel + 1, c :: rest, pat, rep =>
    if !pat.isEmpty && pat.isPrefixOf (c :: rest) then
      rep ++ replChars fuel ((c :: rest).drop pat.length) pat rep
    else c :: replChars fuel rest pat rep

def strReplace (s pat rep : String) : String :=
  ⟨replChars s.data.length s.data pat.data rep.data⟩

theorem replChars_self (fuel : Nat) : ∀ (l pat : List Char), replChars fuel l pat pat = l := by
  induction fuel with
  | zero => intro l pat; rfl
  | succ fuel ih =>
    intro l pat
    cases l with
    | nil => rfl
    | cons c rest =>
      by_cases h : (!pat.isEmpty && pat.isPrefixOf (c :: rest)) = true
      · obtain ⟨t, ht⟩ : ∃ t, pat ++ t = c :: rest :=
          List.isPrefixOf_iff_prefix.mp ((Bool.and_eq_true _ _).mp h).2
        simp only [replChars, h, if_true]
        rw [← ht, List.drop_left, ih t pat]
      · have h' : (!pat.isEmpty && pat.isPrefixOf (c :: rest)) = false :=
          Bool.eq_false_iff.mpr h
        simp only [replChars, h']
        simp only [Bool.false_eq_true, if_false]
        rw [ih rest pat]


theorem strReplace_self (s pat : String) : strReplace s pat pat = s := by
  unfold strReplace
  rw [replChars_self]

/-- Split on `'\n'` (python line structure for `re.MULTILINE` / `dedent`). -/
def splitNl : List Char → List (List Char)
  | [] => [[]]
  | c :: rest =>
    if c = '\n' then [] :: splitNl rest
    else
      match splitNl rest with
      | l :: ls => (c :: l) :: ls
      | [] => [[c]]

def joinNl : List (List Char) → List Char
  | [] => []
  | [l] => l
  | l :: ls => l ++ '\n' :: joinNl ls

def isWsChar (c : Char) : Bool := c = ' ' || c = '\t'

/-- A line matching `^[ \t]+$` (nonempty, all blanks). -/
def wsOnly (l : List Char) : Bool := !l.isEmpty && l.all isWsChar

/-- A line with a character that is not a space or tab (the lines whose
leading whitespace the margin is computed from). -/
def hasText (l : List Char) : Bool := l.any (fun c => !isWsChar c)

def leadWs (l : List Char) : List Char := l.takeWhile isWsChar

/-- Longest common prefix (the margin fold of `textwrap.dedent`). -/
def sharedStart : List Char → List Char → List Char
  | a :: as, b :: bs => if a = b then a :: sharedStart as bs else []
  | _, _ => []

/-- `textwrap.dedent`: blank out whitespace-only lines, compute the common
leading-whitespace margin of the remaining lines, strip it from every line
start. -/
def dedentChars (t : List Char) : List Char :=
  let lines := (splitNl t).map (fun l => if wsOnly l then [] else l)
  let indents := (lines.filter hasText).map leadWs
  let margin :=
    match indents with
    | [] => ([] : List Char)
    | i :: rest => rest.foldl sharedStart i
  joinNl (lines.map (fun l => if margin.isPrefixOf l then l.drop margin.length else l))

def dedentStr (s : String) : String := ⟨dedentChars s.data⟩

/-! ## `_replace_folium_vars` (the final normalisation pass, 4.6)

`re.sub(re.compile("_[a-z0-9]+(?!_)"), replace, leaflet)` where `replace`
maps a match `_<id>` to `_<mappings[id]>` when `id` is in the mappings (and
the stable id is non-empty), else leaves it.  Because of the negative
lookahead, a `_`-followed run of `k ≥ 2` lowercase-alphanumerics that is
followed by another `_` matches only its first `k-1` run characters, and a
run of exactly one such character followed by `_` does not match at all;
scanning resumes right after each match. -/

/-- The replacement function: `match.group()` is `'_' :: idChars`. -/
def replVar (mp : Dict) (idChars : List Char) : List Char :=
  match dictGet mp ⟨idChars⟩ with
  | some r => if r.isEmpty then '_' :: idChars else '_' :: r.data
  | none => '_' :: idChars

/-- One fuel unit per scan step; every step consumes at least one character,
so `length` fuel is exact. -/
def replScan (mp : Dict) : Nat → List Char → List Char
  | 0, l => l
  | _ + 1, [] => []
  | fuel + 1, c :: rest =>
    if c = '_' then
      let run := rest.takeWhile isLowerAlnum
      if run.isEmpty then c :: replScan mp fuel rest
      else
        match rest.drop run.length with
        | '_' :: _ =>
          if 2 ≤ run.length then
            replVar mp (run.take (run.length - 1))
              ++ replScan mp fuel (rest.drop (run.length - 1))
          else '_' :: replScan mp fuel rest
        | _ => replVar mp run ++ replScan mp fuel (rest.drop run.length)
    else c :: replScan mp fuel rest

def replaceFoliumVars (leaflet : String) (mp : Dict) : String :=
  ⟨replScan mp leaflet.data.length leaflet.data⟩

/-- `generate_leaflet_string(m, nested, base_id)`: run the traversal on a
fresh mappings dict, then apply the textual normalisation pass with the
mappings it built.  `p`/`g` are the ambient current ids of the root's parent
and grandparent objects (for the auxiliary-role block). -/
def generate_leaflet_string (m : Elem) (nested : Bool) (baseId : String)
    (p g : Option String) : Option String :=
  match genLeaflet m nested baseId ([] : Dict) p g with
  | (none, _) => none
  | (some l, mp) => some (replaceFoliumVars l mp)

/-- `get_full_id(m)`. -/
def get_full_id (m : Elem) : String :=
  match m with
  | .dual _ m1 _ => elemName m1 ++ "_" ++ rootEid m1
  | .node _ _ => elemName m ++ "_" ++ rootEid m

/-- `_get_map_string(fig)`.  For a dual-map figure, by the time
`get_full_id(fig.m2)` is evaluated the traversal above has already set
`fig.m2._id = "div2"`, so the id rewritten to `"map_div2"` is
`f"{m2._name.lower()}_div2"`. -/
def get_map_string (fig : Elem) (p g : Option String) : Option String :=
  match generate_leaflet_string fig true "div" p g with
  | none => none
  | some l0 =>
    let l1 := strReplace l0 "alert(coords);" ""
    let l2 := strReplace l1 "drawnItems_draw_control_div_1" "drawnItems"
    let l3 := dedentStr l2
    let l4 := if containsSub l3 "drawnItems" then l3 else l3 ++ "\nvar drawnItems = [];"
    match fig with
    | .dual _ _ m2 => some (strReplace l4 (elemName m2 ++ "_" ++ "div2") "map_div2")
    | .node _ _ => some l4

/-- C10: whenever `_get_map_string` returns, its script contains
`drawnItems`: the literal `drawnItems_draw_control_div_1` is renamed to
`drawnItems`, and if the string is still absent the declaration
`var drawnItems = [];` is appended.  (For a dual-map figure the final
`m2`-id rewrite replaces `map_div2` by itself — folium's `Map` element is
named `"map"` — so it cannot remove the binding.) -/
theorem c10_drawn_items (fig : Elem) (p g : Option String) (out : String)
    (hout : get_map_string fig p g = some out)
    (hname : ∀ a m1 m2, fig = .dual a m1 m2 → elemName m2 = "map") :
    containsSub out "drawnItems" = true := by
  unfold get_map_string at hout
  cases hgen : generate_leaflet_string fig true "div" p g with
  | none => rw [hgen] at hout; exact absurd hout (by simp)
  | some l0 =>
    rw [hgen] at hout
    simp only at hout
    set l3 := dedentStr (strReplace (strReplace l0 "alert(coords);" "")
      "drawnItems_draw_control_div_1" "drawnItems") with hl3
    have hl4 : containsSub (if containsSub l3 "drawnItems" then l3
        else l3 ++ "\nvar drawnItems = [];") "drawnItems" = true := by
      by_cases hc : containsSub l3 "drawnItems" = true
      · simp [hc]
      · have hc' : containsSub l3 "drawnItems" = false := Bool.eq_false_iff.mpr hc
        simp only [hc', Bool.false_eq_true, if_false]
        show containsChars (l3 ++ ("\nvar drawnItems = [];" : String)).data
          ("drawnItems" : String).data = true
        rw [String.data_append]
        exact containsChars_append_right _ _ _ (by decide)
    cases fig with
    | node a cs =>
      have : some (if containsSub l3 "drawnItems" then l3
          else l3 ++ "\nvar drawnItems = [];") = some out := hout
      rw [← Option.some.injEq .. |>.mp this]
      exact hl4
    | dual a m1 m2 =>
      have hm2 : elemName m2 = "map" := hname a m1 m2 rfl
      have hout' : some (strReplace (if containsSub l3 "drawnItems" = true then l3
          else l3 ++ "\nvar drawnItems = [];") (elemName m2 ++ "_" ++ "div2") "map_div2")
          = some out := hout
      rw [hm2] at hout'
      have heq : ("map" : String) ++ "_" ++ "div2" = "map_div2" := by decide
      rw [heq, strReplace_self] at hout'
      rw [← Option.some.injEq .. |>.mp hout']
      exact hl4

/-- A one-node map figure. -/
def c10Fig : Elem := .node ⟨"ephM", "map", some "var M;", none, none, none⟩ .nil

/-- C10 witness: on `c10Fig` the map script has no `drawnItems`, so the
declaration is appended and the binding is present. -/
theorem c10_drawn_items_witness :
    get_map_string c10Fig none none = some "var M;\nvar drawnItems = [];" ∧
    containsSub "var M;\nvar drawnItems = [];" "drawnItems" = true :=
  ⟨by decide,
    c10_drawn_items c10Fig none none _ (by decide) (fun a m1 m2 h => nomatch h)⟩


/-! ## `_get_feature_group_string` (C6) -/

def addLayerStmt (idx : Nat) : String :=
  "map_div.addLayer(feature_group_feature_group_" ++ toString idx ++ ");"

def pushStmt (idx : Nat) : String :=
  "window.feature_group.push(feature_group_feature_group_" ++ toString idx ++ ");"

/-- The f-string literal appended by `_get_feature_group_string`, with its
8-space source indentation (the `dedent` applied to it is in
`get_feature_group_string` below). -/
def rawSnippet (idx : Nat) : String :=
  "\n        " ++ addLayerStmt idx
    ++ "\n        window.feature_group = window.feature_group || [];\n        "
    ++ pushStmt idx ++ "\n        "

/-- `_get_feature_group_string(feature_group_to_add, map, idx)`.
`mapName`/`mapId` are the map's `_name.lower()` and current `_id` when
`get_full_id(map)` is evaluated (by this point `st_folium`'s main render has
set the map's `_id` to `"div"`).  `add_to(map)` and `render()` are external
side effects on the live tree with no contribution to the computed text. -/
def get_feature_group_string (fg : Elem) (mapName mapId : String) (idx : Nat)
    (p g : Option String) : Option String :=
  let base := "feature_group_" ++ toString idx
  match generate_leaflet_string (setRootEid fg base) true base p g with
  | none => none
  | some s =>
    some (dedentStr (strReplace s (mapName ++ "_" ++ mapId) "map_div")
      ++ dedentStr (rawSnippet idx))

/-- The `for idx, feature_group in enumerate(feature_group_to_add)` loop of
`st_folium`, accumulating `feature_group_string += ...`. -/
def featureGroupsGo (mapName mapId : String) (p g : Option String) :
    List Elem → Nat → String → Option String
  | [], _, acc => some acc
  | fg :: rest, idx, acc =>
    match get_feature_group_string fg mapName mapId idx p g with
    | none => none
    | some s => featureGroupsGo mapName mapId p g rest (idx + 1) (acc ++ s)

def featureGroupsString (fgs : List Elem) (mapName mapId : String)
    (p g : Option String) : Option String :=
  featureGroupsGo mapName mapId p g fgs 0 ""

theorem rootEid_setRootEid (m : Elem) (i : String) : rootEid (setRootEid m i) = i := by
  cases m <;> rfl

theorem rawSnippet_contains_addLayer (idx : Nat) :
    containsSub (rawSnippet idx) (addLayerStmt idx) = true := by
  unfold containsSub rawSnippet
  simp only [String.data_append, List.append_assoc]
  exact containsChars_sandwich _ _ _

theorem rawSnippet_contains_push (idx : Nat) :
    containsSub (rawSnippet idx) (pushStmt idx) = true := by
  unfold containsSub rawSnippet
  simp only [String.data_append, List.append_assoc]
  refine containsChars_append_right _ _ _ ?_
  refine containsChars_append_right _ _ _ ?_
  refine containsChars_append_right _ _ _ ?_
  exact containsChars_of_isPrefixOf _ _ (List.isPrefixOf_iff_prefix.mpr ⟨_, rfl⟩)

theorem featureGroupsGo_blocks (mapName mapId : String) (p g : Option String)
    (fgs : List Elem) :
    ∀ (start : Nat) (acc : String),
    (∀ i (hi : i < fgs.length),
      (get_feature_group_string (fgs.get ⟨i, hi⟩) mapName mapId (start + i) p g).isSome
        = true) →
    ∃ blocks : List String,
      featureGroupsGo mapName mapId p g fgs start acc = some (acc ++ strJoin blocks) ∧
      blocks.length = fgs.length ∧
      ∀ i (hi : i < fgs.length),
        blocks[i]? = get_feature_group_string (fgs.get ⟨i, hi⟩) mapName mapId (start + i) p g := by
  induction fgs with
  | nil =>
    intro start acc _
    exact ⟨[], by simp [featureGroupsGo, strJoin], rfl, fun i hi => by simp at hi⟩
  | cons fg rest ih =>
    intro start acc hok
    have h0 : (get_feature_group_string fg mapName mapId start p g).isSome = true :=
      hok 0 (by simp)
    obtain ⟨s, hs⟩ := Option.isSome_iff_exists.mp h0
    obtain ⟨blocks, hgo, hlen, hblocks⟩ := ih (start + 1) (acc ++ s)
      (fun i hi => by
        have := hok (i + 1) (Nat.succ_lt_succ hi)
        have harith : start + (i + 1) = start + 1 + i := by omega
        rw [harith] at this
        simpa [List.get] using this)
    refine ⟨s :: blocks, ?_, by simp [hlen], ?_⟩
    · simp only [featureGroupsGo, hs, hgo, strJoin]
      congr 1
      rw [String.append_assoc]
    · intro i hi
      cases i with
      | zero =>
        simpa [List.get] using hs.symm
      | succ i' =>
        have := hblocks i' (Nat.lt_of_succ_lt_succ hi)
        have harith : start + 1 + i' = start + (i' + 1) := by omega
        rw [harith] at this
        simpa [List.get] using this

/-- C6: running the feature-group transcoder over a list of groups in call
order produces the concatenation, in order, of one block per group; the
`i`-th block renders its group after re-identifying it as
`"feature_group_{i}"` (and under that base id), rewrites the map's full id
`"{mapName}_{mapId}"` to the literal `"map_div"`, and appends the dedented
activation snippet, which contains
`map_div.addLayer(feature_group_feature_group_{i});` and
`window.feature_group.push(feature_group_feature_group_{i});` — so the
well-known global list receives the groups in call order. -/
theorem c6_feature_groups (fgs : List Elem) (mapName mapId : String)
    (p g : Option String)
    (hok : ∀ i (hi : i < fgs.length),
      (get_feature_group_string (fgs.get ⟨i, hi⟩) mapName mapId i p g).isSome = true) :
    ∃ blocks : List String,
      featureGroupsString fgs mapName mapId p g = some (strJoin blocks) ∧
      blocks.length = fgs.length ∧
      ∀ i (hi : i < fgs.length),
        blocks[i]? = get_feature_group_string (fgs.get ⟨i, hi⟩) mapName mapId i p g ∧
        rootEid (setRootEid (fgs.get ⟨i, hi⟩) ("feature_group_" ++ toString i))
          = "feature_group_" ++ toString i ∧
        (∃ frag,
          generate_leaflet_string
              (setRootEid (fgs.get ⟨i, hi⟩) ("feature_group_" ++ toString i)) true
              ("feature_group_" ++ toString i) p g = some frag ∧
          get_feature_group_string (fgs.get ⟨i, hi⟩) mapName mapId i p g
            = some (dedentStr (strReplace frag (mapName ++ "_" ++ mapId) "map_div")
                ++ dedentStr (rawSnippet i))) ∧
        containsSub (rawSnippet i) (addLayerStmt i) = true ∧
        containsSub (rawSnippet i) (pushStmt i) = true := by
  obtain ⟨blocks, hgo, hlen, hblocks⟩ :=
    featureGroupsGo_blocks mapName mapId p g fgs 0 "" (fun i hi => by simpa using hok i hi)
  refine ⟨blocks, by simpa [featureGroupsString] using hgo, hlen, ?_⟩
  intro i hi
  have hsome := hok i hi
  refine ⟨by simpa using hblocks i hi, rootEid_setRootEid _ _, ?_,
    rawSnippet_contains_addLayer i, rawSnippet_contains_push i⟩
  have hunfold : get_feature_group_string (fgs.get ⟨i, hi⟩) mapName mapId i p g
      = match generate_leaflet_string
          (setRootEid (fgs.get ⟨i, hi⟩) ("feature_group_" ++ toString i)) true
          ("feature_group_" ++ toString i) p g with
        | none => none
        | some s => some (dedentStr (strReplace s (mapName ++ "_" ++ mapId) "map_div")
            ++ dedentStr (rawSnippet i)) := rfl
  rcases hgen : generate_leaflet_string
      (setRootEid (fgs.get ⟨i, hi⟩) ("feature_group_" ++ toString i)) true
      ("feature_group_" ++ toString i) p g with _ | frag
  · exfalso
    have hnone : get_feature_group_string (fgs.get ⟨i, hi⟩) mapName mapId i p g = none := by
      rw [hunfold, hgen]
    rw [hnone] at hsome
    simp at hsome
  · refine ⟨frag, rfl, ?_⟩
    rw [hunfold, hgen]

/-- Two concrete feature groups. -/
def c6Group0 : Elem := .node ⟨"ephg0", "feature_group", some "var G0;", none, none, none⟩ .nil

def c6Group1 : Elem := .node ⟨"ephg1", "feature_group", some "var G1;", none, none, none⟩ .nil

/-- C6 witness: two successive calls with indices 0 and 1 on concrete
groups; the hypotheses evaluate by computation and the theorem applies. -/
theorem c6_feature_groups_witness :
    (∀ i (hi : i < [c6Group0, c6Group1].length),
      (get_feature_group_string ([c6Group0, c6Group1].get ⟨i, hi⟩) "map" "div" i
        none none).isSome = true) ∧
    (∃ blocks : List String,
      featureGroupsString [c6Group0, c6Group1] "map" "div" none none
        = some (strJoin blocks) ∧
      blocks.length = [c6Group0, c6Group1].length ∧
      ∀ i (hi : i < [c6Group0, c6Group1].length),
        blocks[i]? = get_feature_group_string ([c6Group0, c6Group1].get ⟨i, hi⟩)
          "map" "div" i none none ∧
        rootEid (setRootEid ([c6Group0, c6Group1].get ⟨i, hi⟩)
            ("feature_group_" ++ toString i)) = "feature_group_" ++ toString i ∧
        (∃ frag,
          generate_leaflet_string
              (setRootEid ([c6Group0, c6Group1].get ⟨i, hi⟩)
                ("feature_group_" ++ toString i)) true
              ("feature_group_" ++ toString i) none none = some frag ∧
          get_feature_group_string ([c6Group0, c6Group1].get ⟨i, hi⟩) "map" "div" i
              none none
            = some (dedentStr (strReplace frag ("map" ++ "_" ++ "div") "map_div")
                ++ dedentStr (rawSnippet i))) ∧
        containsSub (rawSnippet i) (addLayerStmt i) = true ∧
        containsSub (rawSnippet i) (pushStmt i) = true) :=
  ⟨by decide, c6_feature_groups [c6Group0, c6Group1] "map" "div" none none (by decide)⟩


/-! ## The default interaction envelope of `st_folium` (C7, C8, C9)

`st_folium` builds `_defaults`, a dict of ten fields, and filters it by the
caller's `returned_objects`.  Coordinates are real numbers in the source
(floats from `folium_map.get_bounds()`); they are modelled as `ℚ` — only
their presence/absence matters to the claims.  `boundsQuery = none` models
`get_bounds()` raising `AttributeError` (absorbed by the `try/except` into
the null-pair sentinel); `options = none` models a map object without an
`options` attribute (zoom becomes the empty-mapping sentinel), and
`options = some none` a `options.get("zoom")` miss (zoom becomes null). -/

structure Bounds4 where
  swLat : Option ℚ
  swLng : Option ℚ
  neLat : Option ℚ
  neLng : Option ℚ
  deriving DecidableEq

inductive EnvVal where
  | null
  | boundsVal (b : Bounds4)
  | zoomVal (z : ℚ)
  | emptyMap
  deriving DecidableEq

/-- Envelope field lookup (python dict access by key). -/
def envGet (l : List (String × EnvVal)) (k : String) : Option EnvVal :=
  match l.find? (fun kv => kv.1 == k) with
  | some kv => some kv.2
  | none => none

/-- `_defaults` of `st_folium`: the ten fields in source order, with
`bounds_to_dict(bounds)` for `bounds` (sentinel when the extent query
raised) and `options.get("zoom")` for `zoom`. -/
def defaultEnvelope (boundsQuery : Option Bounds4) (options : Option (Option ℚ)) :
    List (String × EnvVal) :=
  let bounds := match boundsQuery with
    | some bl => bl
    | none => ⟨none, none, none, none⟩
  [("last_clicked", .null),
   ("last_object_clicked", .null),
   ("last_object_clicked_tooltip", .null),
   ("last_object_clicked_popup", .null),
   ("all_drawings", .null),
   ("last_active_drawing", .null),
   ("bounds", .boundsVal bounds),
   ("zoom", match options with
            | some z => match z with
                        | some q => .zoomVal q
                        | none => .null
            | none => .emptyMap),
   ("last_circle_radius", .null),
   ("last_circle_polygon", .null)]

/-- `defaults = {k: v for k, v in _defaults.items()
                 if returned_objects is None or k in returned_objects}`. -/
def filteredEnvelope (returnedObjects : Option (List String))
    (boundsQuery : Option Bounds4) (options : Option (Option ℚ)) :
    List (String × EnvVal) :=
  (defaultEnvelope boundsQuery options).filter
    (fun kv => match returnedObjects with
               | none => true
               | some ro => ro.contains kv.1)

/-- The fixed canonical field order of the envelope. -/
def canonicalFields : List String :=
  ["last_clicked", "last_object_clicked", "last_object_clicked_tooltip",
   "last_object_clicked_popup", "all_drawings", "last_active_drawing",
   "bounds", "zoom", "last_circle_radius", "last_circle_polygon"]

theorem map_fst_filter_keys (l : List (String × EnvVal)) (p : String → Bool) :
    ((l.filter (fun kv => p kv.1)).map Prod.fst) = (l.map Prod.fst).filter p := by
  induction l with
  | nil => rfl
  | cons kv rest ih =>
    by_cases h : p kv.1 = true
    · simp [List.filter_cons, h, ih]
    · have h' := Bool.eq_false_iff.mpr h
      simp [List.filter_cons, h', ih]

/-- C7: with a caller-supplied restricted field set, the envelope's keys are
exactly the supplied names that exist in the canonical field set
(exact string match), in the fixed canonical order — only the membership of
the caller's set matters, not its order; in particular
`{"bounds", "zoom"}` (in either order) yields exactly
`["bounds", "zoom"]` in canonical order. -/
theorem c7_envelope_filtering (ro : List String) (boundsQuery : Option Bounds4)
    (options : Option (Option ℚ)) :
    ((filteredEnvelope (some ro) boundsQuery options).map Prod.fst
      = canonicalFields.filter (fun k => ro.contains k)) ∧
    (∀ k, k ∈ (filteredEnvelope (some ro) boundsQuery options).map Prod.fst ↔
      (k ∈ canonicalFields ∧ ro.contains k = true)) ∧
    (∀ ro' : List String, (∀ k, ro.contains k = ro'.contains k) →
      filteredEnvelope (some ro) boundsQuery options
        = filteredEnvelope (some ro') boundsQuery options) ∧
    ((filteredEnvelope (some ["bounds", "zoom"]) boundsQuery options).map Prod.fst
      = ["bounds", "zoom"]) ∧
    ((filteredEnvelope (some ["zoom", "bounds"]) boundsQuery options).map Prod.fst
      = ["bounds", "zoom"]) := by
  have hkeys : ∀ l : List String,
      (filteredEnvelope (some l) boundsQuery options).map Prod.fst
        = canonicalFields.filter (fun k => l.contains k) := by
    intro l
    show ((defaultEnvelope boundsQuery options).filter
        (fun kv => l.contains kv.1)).map Prod.fst = _
    rw [map_fst_filter_keys]
    rfl
  refine ⟨hkeys ro, ?_, ?_, ?_, ?_⟩
  · intro k
    rw [hkeys ro, List.mem_filter]
  · intro ro' hro
    unfold filteredEnvelope
    exact List.filter_congr (fun kv _ => by simp only [hro kv.1])
  · rw [hkeys]
    decide
  · rw [hkeys]
    decide

/-- C7 witness: the theorem at the claim's instance, with the caller's set in
non-canonical order, plus the computed envelope keys at concrete inputs. -/
theorem c7_envelope_filtering_witness :
    ((filteredEnvelope (some ["zoom", "bounds"]) none (some (some 7))).map Prod.fst
      = ["bounds", "zoom"]) ∧
    ((filteredEnvelope (some ["zoom", "Bounds"]) none (some (some 7))).map Prod.fst
      = ["zoom"]) ∧
    filteredEnvelope (some ["zoom", "bounds"]) none (some (some 7))
      = filteredEnvelope (some ["bounds", "zoom"]) none (some (some 7)) :=
  ⟨by decide, by decide,
    (c7_envelope_filtering ["zoom", "bounds"] none (some (some 7))).2.2.1
      ["bounds", "zoom"]
      (by
        intro k
        simp only [List.contains_cons, List.contains_nil]
        cases k == "zoom" <;> cases k == "bounds" <;> simp)⟩

/-- C8: when the geographic-extent query is unavailable (`get_bounds()`
raises, absorbed by the `try/except`), the default envelope's `bounds` field
is the sentinel with null latitude and longitude in both corners; the
envelope construction is total, so nothing propagates to the caller. -/
theorem c8_missing_bounds (options : Option (Option ℚ)) :
    envGet (filteredEnvelope none none options) "bounds"
      = some (.boundsVal ⟨none, none, none, none⟩) ∧
    envGet (defaultEnvelope none options) "bounds"
      = some (.boundsVal ⟨none, none, none, none⟩) := by
  constructor <;> rfl

/-- C9: with `returned_objects = None` the default envelope has exactly the
ten canonical fields in order — the eight spec-enumerated ones plus
`last_circle_radius` and `last_circle_polygon`, both null. -/
theorem c9_ten_fields (boundsQuery : Option Bounds4) (options : Option (Option ℚ)) :
    ((filteredEnvelope none boundsQuery options).map Prod.fst = canonicalFields) ∧
    (filteredEnvelope none boundsQuery options).length = 10 ∧
    envGet (filteredEnvelope none boundsQuery options) "last_circle_radius"
      = some .null ∧
    envGet (filteredEnvelope none boundsQuery options) "last_circle_polygon"
      = some .null := by
  refine ⟨?_, ?_, ?_, ?_⟩ <;> rfl

end StFolium
